import Mathlib

/-!
Formal model of the spectral visualization engine of the music visualizer
(`music-visualizer/widgets/visualizers.py`), together with proofs about its
band mapping, adaptive normalization, and scrolling history buffer.

Real-valued (float) quantities of the Python code are modelled over `ℝ`;
list indexing `a[idx]` with an index set produced by `np.where` is modelled
with `List.filter` over bin indices; operations that can raise a Python
exception (`max` over an empty sequence) are modelled with `Option`.
-/

/-- Model of `np.fft.rfftfreq(n, d)`: the list `[0, 1, ..., n/2] / (d*n)`.
Used by every visualizer as `np.fft.rfftfreq(n_fft * 2 - 1, 1.0 / samplerate)`. -/
noncomputable def rfftfreq (n : ℕ) (d : ℝ) : List ℝ :=
  (List.range (n / 2 + 1)).map (fun k : ℕ => (k : ℝ) / (d * n))

/-- Model of `np.logspace(a, b, num)`: `num` samples `10 ** (a + i*(b-a)/(num-1))`. -/
noncomputable def logspace (a b : ℝ) (num : ℕ) : List ℝ :=
  (List.range num).map (fun i : ℕ => (10 : ℝ) ^ (a + (i : ℝ) * (b - a) / ((num - 1 : ℕ) : ℝ)))

/-- Band edges: `np.logspace(np.log10(min_freq), np.log10(max_freq), n + 1)`. -/
noncomputable def edgesLog (minF maxF : ℝ) (n : ℕ) : List ℝ :=
  logspace (Real.logb 10 minF) (Real.logb 10 maxF) (n + 1)

/-- Model of `np.mean` over a list of reals (sum divided by length). -/
noncomputable def listMean (l : List ℝ) : ℝ := l.sum / l.length

/-- Mean of the magnitudes `samples[idx]` selected by a bin-index list,
i.e. `np.mean(samples[idx])`. -/
noncomputable def bandMean (samples : List ℝ) (idx : List ℕ) : ℝ :=
  listMean (idx.map (fun k => samples.getD k 0))

/-- Bin selection for band `i`:
`idx = np.where((freqs >= band_edges[i]) & (freqs < band_edges[i+1]))[0]`
followed by `idx = idx[idx < len(samples)]` (here `L = len(samples)`). -/
noncomputable def bandSel (edges freqs : List ℝ) (L : ℕ) (i : ℕ) : List ℕ :=
  ((List.range freqs.length).filter (fun k =>
      decide (edges.getD i 0 ≤ freqs.getD k 0 ∧ freqs.getD k 0 < edges.getD (i + 1) 0))).filter
    (fun k => decide (k < L))

/-- The band-energy loop `for i in range(n_bands): ...` shared by all
visualizer variants, producing the raw (pre-log) band energies.
`gap = true` models the waterfall/spectrogram loop, which keeps a
`prev_energy` variable and substitutes it for an empty band;
`gap = false` models the circle/flames/bar loop, which appends `0` for an
empty band.  The first argument of the recursion is the current band index
`i`, the second the number of remaining bands, the third the current value
of `prev_energy` (initially `0`). -/
noncomputable def bandLoop (gap : Bool) (samples : List ℝ) (sel : ℕ → List ℕ) :
    ℕ → ℕ → ℝ → List ℝ
  | _, 0, _ => []
  | i, m + 1, prev =>
    if sel i = [] then
      (if gap then prev else 0) :: bandLoop gap samples sel (i + 1) m prev
    else
      bandMean samples (sel i) :: bandLoop gap samples sel (i + 1) m (bandMean samples (sel i))

/-- Bin selection of `WaterfallVisualizer.update_visualization`, generalized
over `self.n_bands` (the hard-coded band range is 20 Hz to 20000 Hz). -/
noncomputable def wfSelN (n : ℕ) (sr : ℝ) (samples : List ℝ) (i : ℕ) : List ℕ :=
  bandSel (edgesLog 20 20000 n) (rfftfreq (2 * samples.length - 1) (1 / sr)) samples.length i

/-- Raw band energies of the waterfall loop (with gap interpolation). -/
noncomputable def wfRawBandsN (n : ℕ) (sr : ℝ) (samples : List ℝ) : List ℝ :=
  bandLoop true samples (wfSelN n sr samples) 0 n 0

/-- Log-compressed band energies of the waterfall loop:
`band_energies.append(np.log10(band_energy + 1e-3))`. -/
noncomputable def wfEnergiesN (n : ℕ) (sr : ℝ) (samples : List ℝ) : List ℝ :=
  (wfRawBandsN n sr samples).map (fun b => Real.logb 10 (b + 1e-3))

/-- Waterfall bin selection at the configured `n_bands = 40`. -/
noncomputable def wfSel (sr : ℝ) (samples : List ℝ) (i : ℕ) : List ℕ := wfSelN 40 sr samples i

/-- Waterfall raw band energies at the configured `n_bands = 40`. -/
noncomputable def wfRawBands (sr : ℝ) (samples : List ℝ) : List ℝ := wfRawBandsN 40 sr samples

/-- Waterfall log band energies at the configured `n_bands = 40`. -/
noncomputable def wfBandEnergies (sr : ℝ) (samples : List ℝ) : List ℝ := wfEnergiesN 40 sr samples

/-- Bin selection of `CircleVisualizer.update_visualization`
(`n_bars = 40`, 20 Hz to 20000 Hz). -/
noncomputable def circleSel (sr : ℝ) (samples : List ℝ) (i : ℕ) : List ℕ :=
  bandSel (edgesLog 20 20000 40) (rfftfreq (2 * samples.length - 1) (1 / sr)) samples.length i

/-- Raw band energies of the circle loop: an empty band contributes `0`
(its loop has no `prev_energy` variable). -/
noncomputable def circleRawBands (sr : ℝ) (samples : List ℝ) : List ℝ :=
  bandLoop false samples (circleSel sr samples) 0 40 0

/-- Log band energies of the circle loop. -/
noncomputable def circleBandEnergies (sr : ℝ) (samples : List ℝ) : List ℝ :=
  (circleRawBands sr samples).map (fun b => Real.logb 10 (b + 1e-3))

/-- Bin selection of `FlamesVisualizer.update_visualization`
(`n_flames = 24`, 40 Hz to 8000 Hz). -/
noncomputable def flamesSel (sr : ℝ) (samples : List ℝ) (i : ℕ) : List ℕ :=
  bandSel (edgesLog 40 8000 24) (rfftfreq (2 * samples.length - 1) (1 / sr)) samples.length i

/-- Raw band energies of the flames loop (no gap interpolation). -/
noncomputable def flamesRawBands (sr : ℝ) (samples : List ℝ) : List ℝ :=
  bandLoop false samples (flamesSel sr samples) 0 24 0

/-- Log band energies of the flames loop. -/
noncomputable def flamesBandEnergies (sr : ℝ) (samples : List ℝ) : List ℝ :=
  (flamesRawBands sr samples).map (fun b => Real.logb 10 (b + 1e-3))

/-- Running-maximum update of every visualizer:
`self._running_max = max(self._running_max * 0.95, current_max)`. -/
noncomputable def runningMaxStep (rm peak : ℝ) : ℝ := max (rm * 0.95) peak

/-- Waterfall normalization:
`norm_bands = [min(1.0, max(0.05, b / (self._running_max + 1e-6))) for b in band_energies]`. -/
noncomputable def wfNormBands (rm : ℝ) (energies : List ℝ) : List ℝ :=
  energies.map (fun b => min 1 (max 0.05 (b / (rm + 1e-6))))

/-- Circle/bar normalization:
`norm = band_energies[i] / (self._running_max + 1e-6)` then
`min(1.0, max(0.0, norm))`. -/
noncomputable def circleNormBands (rm : ℝ) (energies : List ℝ) : List ℝ :=
  energies.map (fun b => min 1 (max 0 (b / (rm + 1e-6))))

/-- Spectrogram normalization:
`np.clip(spec / (self._running_max + 1e-6), 0.05, 1.0)` applied elementwise
to the whole matrix. -/
noncomputable def specClip (rm : ℝ) (spec : List (List ℝ)) : List (List ℝ) :=
  spec.map (fun row => row.map (fun x => min 1 (max 0.05 (x / (rm + 1e-6)))))

/-- Model of `np.roll(m, -1, axis=0)`: every row moves up one index and
row 0 wraps around to the end. -/
def rollUp {α : Type} (m : List α) : List α := m.drop 1 ++ m.take 1

/-- History push of the waterfall visualizer:
`self.spectrogram = np.roll(self.spectrogram, -1, axis=0)` followed by
`self.spectrogram[-1, :] = norm_bands` (overwrite the last row). -/
def wfPush {α : Type} (m : List α) (row : α) : List α := (rollUp m).set (m.length - 1) row

/-- Mutable state of a `WaterfallVisualizer` instance. -/
structure WfState where
  samplerate : ℝ
  nBands : ℕ
  historyLength : ℕ
  spectrogram : List (List ℝ)
  runningMax : ℝ

/-- Model of `WaterfallVisualizer.__init__`, generalized over the values the
constructor assigns (`samplerate`, `n_bands`, `history_length`); the
constructor performs no validation of any of them.  `min_freq`/`max_freq`
are not attributes at all: they are hard-coded locals (20 and 20000) of
`update_visualization`. -/
noncomputable def wfConfigure (sr : ℝ) (nBands historyLength : ℕ) : WfState :=
  { samplerate := sr
    nBands := nBands
    historyLength := historyLength
    spectrogram := List.replicate historyLength (List.replicate nBands 0)
    runningMax := 1 }

/-- The state actually built by `WaterfallVisualizer.__init__`:
`samplerate = 44100`, `n_bands = 40`, `history_length = 100`,
`spectrogram = np.zeros((100, 40))`, `_running_max = 1.0`. -/
noncomputable def wfInit : WfState := wfConfigure 44100 40 100

/-- One call of `WaterfallVisualizer.update_visualization`.  Python's
`max(band_energies)` raises `ValueError` on an empty list, which is modelled
by returning `none`. -/
noncomputable def wfTick (samples : List ℝ) (st : WfState) : Option WfState :=
  match (wfEnergiesN st.nBands st.samplerate samples).max? with
  | none => none
  | some cm =>
    some { st with
      runningMax := runningMaxStep st.runningMax cm
      spectrogram := wfPush st.spectrogram
        (wfNormBands (runningMaxStep st.runningMax cm) (wfEnergiesN st.nBands st.samplerate samples)) }

/-- Driving the waterfall visualizer with a sequence of spectra, one tick per
frame. -/
noncomputable def wfRun : List (List ℝ) → WfState → Option WfState
  | [], st => some st
  | s :: rest, st =>
    match wfTick s st with
    | none => none
    | some st2 => wfRun rest st2

/-! ## Basic structural lemmas -/

lemma bandLoop_zero (gap : Bool) (samples : List ℝ) (sel : ℕ → List ℕ) (i : ℕ) (prev : ℝ) :
    bandLoop gap samples sel i 0 prev = [] := rfl

lemma bandLoop_length (gap : Bool) (samples : List ℝ) (sel : ℕ → List ℕ) :
    ∀ (m i : ℕ) (prev : ℝ), (bandLoop gap samples sel i m prev).length = m := by
  intro m
  induction m with
  | zero => intro i prev; rfl
  | succ m ih =>
    intro i prev
    by_cases h : sel i = []
    · simp [bandLoop, h, ih]
    · simp [bandLoop, h, ih]

lemma wfEnergiesN_length (n : ℕ) (sr : ℝ) (samples : List ℝ) :
    (wfEnergiesN n sr samples).length = n := by
  simp [wfEnergiesN, wfRawBandsN, bandLoop_length]

lemma wfEnergiesN_max?_eq_some (n : ℕ) (sr : ℝ) (samples : List ℝ) (hn : 0 < n) :
    ∃ cm, (wfEnergiesN n sr samples).max? = some cm := by
  cases h : (wfEnergiesN n sr samples).max? with
  | none =>
    exfalso
    have := List.max?_eq_none_iff.mp h
    have hl := wfEnergiesN_length n sr samples
    rw [this] at hl
    simp at hl
    omega
  | some cm => exact ⟨cm, rfl⟩

lemma wfTick_eq_of_max? (samples : List ℝ) (st : WfState) (cm : ℝ)
    (h : (wfEnergiesN st.nBands st.samplerate samples).max? = some cm) :
    wfTick samples st = some { st with
      runningMax := runningMaxStep st.runningMax cm
      spectrogram := wfPush st.spectrogram
        (wfNormBands (runningMaxStep st.runningMax cm)
          (wfEnergiesN st.nBands st.samplerate samples)) } := by
  unfold wfTick
  rw [h]

/-! ## History buffer lemmas -/

lemma wfPush_length {α : Type} (m : List α) (row : α) : (wfPush m row).length = m.length := by
  simp [wfPush, rollUp]
  omega

lemma wfPush_eq_append {α : Type} (m : List α) (row : α) (h : m ≠ []) :
    wfPush m row = m.tail ++ [row] := by
  cases m with
  | nil => exact absurd rfl h
  | cons a t =>
    simp only [wfPush, rollUp, List.drop_succ_cons, List.drop_zero, List.take_succ_cons,
      List.take_zero, List.length_cons, Nat.add_sub_cancel, List.tail_cons]
    rw [List.set_append_right _ _ (le_refl _)]
    simp

lemma wfPush_foldl {α : Type} :
    ∀ (rows : List α) (m : List α), 0 < m.length → rows.length ≤ m.length →
      List.foldl wfPush m rows = m.drop rows.length ++ rows := by
  intro rows
  induction rows with
  | nil => intro m h1 h2; simp
  | cons r rs ih =>
    intro m h1 h2
    have hm : m ≠ [] := by
      intro he
      rw [he] at h1
      simp at h1
    have hlen : rs.length + 1 ≤ m.length := by simpa using h2
    rw [List.foldl_cons,
      ih (wfPush m r) (by rw [wfPush_length]; exact h1) (by rw [wfPush_length]; omega),
      wfPush_eq_append m r hm, List.drop_append_eq_append_drop]
    have hts : rs.length ≤ m.tail.length := by simp; omega
    have h0 : rs.length - m.tail.length = 0 := Nat.sub_eq_zero_of_le hts
    rw [h0, List.drop_zero, ← List.drop_one, List.drop_drop]
    have : rs.length + 1 = 1 + rs.length := by omega
    simp [this]

lemma wfPush_foldl_length {α : Type} :
    ∀ (rows : List α) (m : List α), (List.foldl wfPush m rows).length = m.length := by
  intro rows
  induction rows with
  | nil => intro m; rfl
  | cons r rs ih => intro m; rw [List.foldl_cons, ih, wfPush_length]

/-! ## Normalization range lemmas -/

lemma wfNorm_lower (rm : ℝ) (energies : List ℝ) :
    ∀ x ∈ wfNormBands rm energies, 0.05 ≤ x := by
  intro x hx
  obtain ⟨b, _, rfl⟩ := List.mem_map.1 hx
  exact le_min (by norm_num) (le_max_left _ _)

lemma wfNorm_upper (rm : ℝ) (energies : List ℝ) :
    ∀ x ∈ wfNormBands rm energies, x ≤ 1 := by
  intro x hx
  obtain ⟨b, _, rfl⟩ := List.mem_map.1 hx
  exact min_le_left _ _

/-! ## Claim C5: band count and totality -/

/-- C5: for every magnitude spectrum (including the degenerate length-1
spectrum and the empty spectrum), the waterfall/circle band mappings return
exactly 40 band energies and the flames mapping exactly 24, and a waterfall
tick never raises: with the configured `n_bands = 40` the `max()` call always
receives a non-empty list, so `wfTick` returns `some` state. -/
theorem band_count_and_totality (sr : ℝ) (samples : List ℝ) (st : WfState) :
    (wfBandEnergies sr samples).length = 40 ∧
    (circleBandEnergies sr samples).length = 40 ∧
    (flamesBandEnergies sr samples).length = 24 ∧
    (st.nBands = 40 → (wfTick samples st).isSome) := by
  refine ⟨?_, ?_, ?_, ?_⟩
  · simp [wfBandEnergies, wfEnergiesN, wfRawBandsN, bandLoop_length]
  · simp [circleBandEnergies, circleRawBands, bandLoop_length]
  · simp [flamesBandEnergies, flamesRawBands, bandLoop_length]
  · intro h
    obtain ⟨cm, hcm⟩ := wfEnergiesN_max?_eq_some st.nBands st.samplerate samples (by omega)
    rw [wfTick_eq_of_max? samples st cm hcm]
    rfl

/-- Witness for C5, at the degenerate one-element spectrum `[5.0]`. -/
theorem band_count_and_totality_witness :
    (wfBandEnergies 44100 [(5:ℝ)]).length = 40 ∧
    (circleBandEnergies 44100 [(5:ℝ)]).length = 40 ∧
    (flamesBandEnergies 44100 [(5:ℝ)]).length = 24 ∧
    (wfTick [(5:ℝ)] wfInit).isSome :=
  ⟨(band_count_and_totality 44100 [(5:ℝ)] wfInit).1,
   (band_count_and_totality 44100 [(5:ℝ)] wfInit).2.1,
   (band_count_and_totality 44100 [(5:ℝ)] wfInit).2.2.1,
   (band_count_and_totality 44100 [(5:ℝ)] wfInit).2.2.2 rfl⟩

/-! ## Claim C6: history buffer FIFO behavior -/

/-- C6: a push never changes the row count (single push and any iterated
sequence of pushes), and pushing `depth` rows into a matrix of `depth` rows
leaves the matrix equal to the pushed rows in push order (FIFO: the oldest
row is dropped, the remaining rows shift up one index, the new row is
written as the last row). -/
theorem history_fifo :
    (∀ (m : List (List ℝ)) (row : List ℝ), (wfPush m row).length = m.length) ∧
    (∀ (m : List (List ℝ)) (rows : List (List ℝ)),
      (List.foldl wfPush m rows).length = m.length) ∧
    (∀ (m rows : List (List ℝ)), 0 < m.length → rows.length = m.length →
      List.foldl wfPush m rows = rows) := by
  refine ⟨fun m row => wfPush_length m row, fun m rows => wfPush_foldl_length rows m, ?_⟩
  intro m rows h1 h2
  rw [wfPush_foldl rows m h1 (le_of_eq h2), h2, List.drop_length, List.nil_append]

/-- Witness for C6: pushing two distinct rows through a two-row matrix. -/
theorem history_fifo_witness :
    0 < ([[(0:ℝ)], [0]] : List (List ℝ)).length ∧
    ([[(1:ℝ)], [2]] : List (List ℝ)).length = ([[(0:ℝ)], [0]] : List (List ℝ)).length ∧
    List.foldl wfPush [[(0:ℝ)], [0]] [[(1:ℝ)], [2]] = [[(1:ℝ)], [2]] :=
  ⟨by simp, by simp, history_fifo.2.2 [[(0:ℝ)], [0]] [[(1:ℝ)], [2]] (by simp) (by simp)⟩

/-! ## Claim C10: warm-up shape of the history matrix -/

/-- C10: the freshly constructed waterfall history matrix is entirely zero,
and after `k ≤ 100` pushes the first `100 - k` rows are still the all-zero
rows while the last `k` rows are the pushed rows in push order; every entry
of a row produced by the waterfall normalization is at least the clamp floor
`0.05`, which is strictly above the zero fill. -/
theorem history_warmup (rows : List (List ℝ)) (h : rows.length ≤ 100) :
    wfInit.spectrogram = List.replicate 100 (List.replicate 40 (0:ℝ)) ∧
    List.foldl wfPush wfInit.spectrogram rows =
      List.replicate (100 - rows.length) (List.replicate 40 (0:ℝ)) ++ rows ∧
    (∀ (rm : ℝ) (energies : List ℝ), ∀ x ∈ wfNormBands rm energies, 0.05 ≤ x) ∧
    ((0:ℝ) < 0.05) := by
  refine ⟨rfl, ?_, fun rm energies => wfNorm_lower rm energies, by norm_num⟩
  have hspec : wfInit.spectrogram = List.replicate 100 (List.replicate 40 (0:ℝ)) := rfl
  rw [hspec, wfPush_foldl rows _ (by simp) (by simp [h]), List.drop_replicate]

/-- Witness for C10 at the empty push sequence. -/
theorem history_warmup_witness :
    wfInit.spectrogram = List.replicate 100 (List.replicate 40 (0:ℝ)) ∧
    List.foldl wfPush wfInit.spectrogram ([] : List (List ℝ)) =
      List.replicate (100 - ([] : List (List ℝ)).length) (List.replicate 40 (0:ℝ)) ++ [] ∧
    (∀ (rm : ℝ) (energies : List ℝ), ∀ x ∈ wfNormBands rm energies, 0.05 ≤ x) ∧
    ((0:ℝ) < 0.05) :=
  history_warmup [] (by simp)

/-! ## Claim C4: normalization output range -/

/-- C4: for every band-energy vector and every running-max value, each
normalized output `clamp(energy / (runningMax + 1e-6), floor, ceiling)` lies
in `[floor, ceiling]`: `[0.05, 1]` for the waterfall and spectrogram
variants, `[0, 1]` for the circle/bar variants. -/
theorem normalized_output_range (rm : ℝ) (energies : List ℝ) (spec : List (List ℝ)) :
    (∀ x ∈ wfNormBands rm energies, 0.05 ≤ x ∧ x ≤ 1) ∧
    (∀ x ∈ circleNormBands rm energies, 0 ≤ x ∧ x ≤ 1) ∧
    (∀ row ∈ specClip rm spec, ∀ x ∈ row, 0.05 ≤ x ∧ x ≤ 1) := by
  refine ⟨fun x hx => ⟨wfNorm_lower rm energies x hx, wfNorm_upper rm energies x hx⟩, ?_, ?_⟩
  · intro x hx
    obtain ⟨b, _, rfl⟩ := List.mem_map.1 hx
    exact ⟨le_min (by norm_num) (le_max_left _ _), min_le_left _ _⟩
  · intro row hrow x hx
    obtain ⟨r0, _, rfl⟩ := List.mem_map.1 hrow
    obtain ⟨b, _, rfl⟩ := List.mem_map.1 hx
    exact ⟨le_min (by norm_num) (le_max_left _ _), min_le_left _ _⟩

/-- Witness for C4 at concrete inputs (energy 0, running max 1). -/
theorem normalized_output_range_witness :
    (0.05 ≤ min 1 (max 0.05 ((0:ℝ) / (1 + 1e-6))) ∧ min 1 (max 0.05 ((0:ℝ) / (1 + 1e-6))) ≤ 1) ∧
    (0 ≤ min 1 (max 0 ((0:ℝ) / (1 + 1e-6))) ∧ min 1 (max 0 ((0:ℝ) / (1 + 1e-6))) ≤ 1) ∧
    (0.05 ≤ min 1 (max 0.05 ((0:ℝ) / (1 + 1e-6))) ∧ min 1 (max 0.05 ((0:ℝ) / (1 + 1e-6))) ≤ 1) :=
  ⟨(normalized_output_range 1 [0] [[0]]).1 _ (by simp [wfNormBands]),
   (normalized_output_range 1 [0] [[0]]).2.1 _ (by simp [circleNormBands]),
   (normalized_output_range 1 [0] [[0]]).2.2 [min 1 (max 0.05 ((0:ℝ) / (1 + 1e-6)))]
     (by simp [specClip]) (min 1 (max 0.05 ((0:ℝ) / (1 + 1e-6)))) (by simp)⟩

/-! ## Claim C3: running-maximum update and decay -/

lemma runningMaxStep_decay :
    ∀ (qs : List ℝ) (p : ℝ), (∀ i, i < qs.length → qs.getD i 0 ≤ p * 0.95 ^ (i + 1)) →
      List.foldl runningMaxStep p qs = p * 0.95 ^ qs.length := by
  intro qs
  induction qs with
  | nil => intro p _; simp
  | cons q qs ih =>
    intro p h
    have hq : q ≤ p * 0.95 := by
      have := h 0 (by simp)
      simpa using this
    have hstep : runningMaxStep p q = p * 0.95 := max_eq_left hq
    rw [List.foldl_cons, hstep, ih (p * 0.95)]
    · simp [pow_succ]
      ring
    · intro i hi
      have hh := h (i + 1) (by simpa using Nat.succ_lt_succ hi)
      have hr : p * 0.95 ^ (i + 1 + 1) = p * 0.95 * 0.95 ^ (i + 1) := by ring
      rw [List.getD_cons_succ] at hh
      rw [← hr]
      exact hh

/-- C3: (a) a successful waterfall tick updates the running maximum to
`max(previous * 0.95, max(bandEnergies))`; (b) after one frame whose peak `p`
is at least the decayed prior maximum, followed by ten frames whose peaks
never exceed the decayed maximum, the running maximum is exactly
`p * 0.95 ^ 10`; (c) the running maximum is non-decreasing across a tick
only when the frame peak exceeds the decayed prior maximum. -/
theorem running_max_update :
    (∀ (samples : List ℝ) (st : WfState), 0 < st.nBands →
      (wfTick samples st).map WfState.runningMax =
        some (runningMaxStep st.runningMax
          ((wfEnergiesN st.nBands st.samplerate samples).max?.getD 0))) ∧
    (∀ (rm0 p : ℝ) (qs : List ℝ), rm0 * 0.95 ≤ p → qs.length = 10 →
      (∀ i, i < 10 → qs.getD i 0 ≤ p * 0.95 ^ (i + 1)) →
      List.foldl runningMaxStep rm0 (p :: qs) = p * 0.95 ^ 10) ∧
    (∀ (rm peak : ℝ), 0 < rm → rm ≤ runningMaxStep rm peak → rm * 0.95 < peak) := by
  refine ⟨?_, ?_, ?_⟩
  · intro samples st h
    obtain ⟨cm, hcm⟩ := wfEnergiesN_max?_eq_some st.nBands st.samplerate samples h
    rw [wfTick_eq_of_max? samples st cm hcm, hcm]
    rfl
  · intro rm0 p qs h1 h2 h3
    have hfirst : runningMaxStep rm0 p = p := max_eq_right h1
    rw [List.foldl_cons, hfirst, runningMaxStep_decay qs p (by rw [h2]; exact h3), h2]
  · intro rm peak h1 h2
    by_contra hcon
    push_neg at hcon
    have heq : runningMaxStep rm peak = rm * 0.95 := max_eq_left hcon
    rw [heq] at h2
    nlinarith

/-- Witness for C3: a tick from the initial state, a loud frame of peak 2
followed by ten silent frames of peak 0, and the monotonicity case
`rm = 1`, `peak = 2`. -/
theorem running_max_update_witness :
    (wfTick [] wfInit).map WfState.runningMax =
      some (runningMaxStep wfInit.runningMax
        ((wfEnergiesN wfInit.nBands wfInit.samplerate []).max?.getD 0)) ∧
    List.foldl runningMaxStep 1 ((2:ℝ) :: List.replicate 10 0) = 2 * 0.95 ^ 10 ∧
    (1:ℝ) * 0.95 < 2 :=
  ⟨running_max_update.1 [] wfInit (by norm_num [wfInit, wfConfigure]),
   running_max_update.2.1 1 2 (List.replicate 10 0) (by norm_num) (by simp)
     (fun i hi => by
       have hz : (List.replicate 10 (0:ℝ)).getD i 0 = 0 := by
         rw [List.getD_eq_getElem?_getD, List.getElem?_replicate]
         split
         · rfl
         · rfl
       rw [hz]
       positivity),
   running_max_update.2.2 1 2 (by norm_num)
     (by unfold runningMaxStep; exact le_trans (by norm_num) (le_max_right _ _))⟩

/-! ## Claim C9: the running maximum stays strictly positive -/

lemma wfTick_pos (samples : List ℝ) (st st2 : WfState)
    (h : wfTick samples st = some st2) (hpos : 0 < st.runningMax) : 0 < st2.runningMax := by
  unfold wfTick at h
  cases hE : (wfEnergiesN st.nBands st.samplerate samples).max? with
  | none => rw [hE] at h; simp at h
  | some cm =>
    rw [hE] at h
    simp only [Option.some.injEq] at h
    have hrm : st2.runningMax = runningMaxStep st.runningMax cm := by rw [← h]
    rw [hrm]
    exact lt_of_lt_of_le (mul_pos hpos (by norm_num)) (le_max_left _ _)

lemma wfRun_pos :
    ∀ (frames : List (List ℝ)) (st st2 : WfState),
      0 < st.runningMax → wfRun frames st = some st2 → 0 < st2.runningMax := by
  intro frames
  induction frames with
  | nil =>
    intro st st2 h hr
    unfold wfRun at hr
    simp only [Option.some.injEq] at hr
    rw [← hr]
    exact h
  | cons s rest ih =>
    intro st st2 h hr
    unfold wfRun at hr
    cases hT : wfTick s st with
    | none => rw [hT] at hr; exact absurd hr (by simp)
    | some stm =>
      rw [hT] at hr
      exact ih stm st2 (wfTick_pos s st stm hT h) hr

/-- C9: the running maximum is seeded at `1.0`, and along every finite run of
ticks it stays strictly positive (each tick multiplies it by `0.95` before
taking a `max`, so it can decay but never reach zero), hence the
normalization divisor `runningMax + 1e-6` is always strictly positive. -/
theorem running_max_positive :
    wfInit.runningMax = 1 ∧
    (∀ (frames : List (List ℝ)) (st2 : WfState),
      wfRun frames wfInit = some st2 → 0 < st2.runningMax ∧ 0 < st2.runningMax + 1e-6) := by
  refine ⟨rfl, fun frames st2 h => ?_⟩
  have hp := wfRun_pos frames wfInit st2 (by norm_num [wfInit, wfConfigure]) h
  exact ⟨hp, by positivity⟩

/-- Witness for C9 at the empty run. -/
theorem running_max_positive_witness :
    wfInit.runningMax = 1 ∧ 0 < wfInit.runningMax ∧ 0 < wfInit.runningMax + 1e-6 :=
  ⟨running_max_positive.1, running_max_positive.2 [] wfInit rfl⟩

/-! ## Claim C8: no configuration-time validation -/

/-- Counterexample for C8: the invalid configuration `n_bands = 0` is
accepted at configuration time (the constructor stores it without raising),
and the failure instead happens on the first tick, where `max()` is applied
to the empty band-energy list (`ValueError`, modelled as `none`). -/
theorem config_no_validation_counterexample :
    (wfConfigure 44100 0 100).nBands = 0 ∧
    wfTick [(1:ℝ)] (wfConfigure 44100 0 100) = none := by
  refine ⟨rfl, ?_⟩
  unfold wfTick
  have h : wfEnergiesN (wfConfigure 44100 0 100).nBands
      (wfConfigure 44100 0 100).samplerate [(1:ℝ)] = [] := by
    simp [wfEnergiesN, wfRawBandsN, wfConfigure, bandLoop_zero]
  rw [h]
  rfl

/-- C8 (amended): the visualizer performs no configuration-time validation
at all.  Construction accepts every combination of `samplerate`, `n_bands`
and `history_length` and simply stores it; the invalid value `n_bands = 0`
only fails later, at tick time, when `max(band_energies)` sees an empty
list.  (`min_freq`/`max_freq` are hard-coded constants of the update method
and are not configurable, so no check against Nyquist exists either.) -/
theorem config_acceptance_and_tick_failure :
    (∀ (sr : ℝ) (n hl : ℕ),
      (wfConfigure sr n hl).samplerate = sr ∧ (wfConfigure sr n hl).nBands = n ∧
      (wfConfigure sr n hl).historyLength = hl ∧ (wfConfigure sr n hl).runningMax = 1) ∧
    (∀ (samples : List ℝ) (st : WfState), st.nBands = 0 → wfTick samples st = none) := by
  refine ⟨fun sr n hl => ⟨rfl, rfl, rfl, rfl⟩, ?_⟩
  intro samples st h
  unfold wfTick
  have he : wfEnergiesN st.nBands st.samplerate samples = [] := by
    rw [h]
    simp [wfEnergiesN, wfRawBandsN, bandLoop_zero]
  rw [he]
  rfl

/-- Witness for C8 on concrete configurations. -/
theorem config_acceptance_and_tick_failure_witness :
    ((wfConfigure 44100 0 100).samplerate = 44100 ∧ (wfConfigure 44100 0 100).nBands = 0 ∧
      (wfConfigure 44100 0 100).historyLength = 100 ∧ (wfConfigure 44100 0 100).runningMax = 1) ∧
    wfTick [] (wfConfigure 44100 0 100) = none :=
  ⟨config_acceptance_and_tick_failure.1 44100 0 100,
   config_acceptance_and_tick_failure.2 [] (wfConfigure 44100 0 100) rfl⟩

/-! ## Claim C1: band-energy recursion (gap interpolation) -/

lemma bandLoop_succ (gap : Bool) (samples : List ℝ) (sel : ℕ → List ℕ) (i m : ℕ) (prev : ℝ) :
    bandLoop gap samples sel i (m + 1) prev =
      if sel i = [] then
        (if gap then prev else 0) :: bandLoop gap samples sel (i + 1) m prev
      else
        bandMean samples (sel i) ::
          bandLoop gap samples sel (i + 1) m (bandMean samples (sel i)) := rfl

lemma bandLoop_gap_getD (samples : List ℝ) (sel : ℕ → List ℕ) :
    ∀ (m i0 : ℕ) (prev : ℝ) (j : ℕ), j < m →
      (bandLoop true samples sel i0 m prev).getD j 0 =
        if sel (i0 + j) = [] then
          (if j = 0 then prev else (bandLoop true samples sel i0 m prev).getD (j - 1) 0)
        else bandMean samples (sel (i0 + j)) := by
  intro m
  induction m with
  | zero => intro i0 prev j hj; omega
  | succ m ih =>
    intro i0 prev j hj
    by_cases hsel : sel i0 = []
    · rw [bandLoop_succ, if_pos hsel]
      simp only [if_true]
      cases j with
      | zero => simp [hsel]
      | succ j2 =>
        rw [List.getD_cons_succ, ih (i0 + 1) prev j2 (by omega)]
        have h1 : i0 + 1 + j2 = i0 + (j2 + 1) := by omega
        rw [h1]
        have haux : (prev :: bandLoop true samples sel (i0 + 1) m prev).getD (j2 + 1 - 1) 0 =
            if j2 = 0 then prev
            else (bandLoop true samples sel (i0 + 1) m prev).getD (j2 - 1) 0 := by
          cases j2 <;> simp
        by_cases hs2 : sel (i0 + (j2 + 1)) = []
        · rw [if_pos hs2, if_pos hs2, if_neg (Nat.succ_ne_zero j2), haux]
        · rw [if_neg hs2, if_neg hs2]
    · rw [bandLoop_succ, if_neg hsel]
      cases j with
      | zero => simp [hsel]
      | succ j2 =>
        rw [List.getD_cons_succ, ih (i0 + 1) (bandMean samples (sel i0)) j2 (by omega)]
        have h1 : i0 + 1 + j2 = i0 + (j2 + 1) := by omega
        rw [h1]
        have haux : (bandMean samples (sel i0) ::
              bandLoop true samples sel (i0 + 1) m (bandMean samples (sel i0))).getD
                (j2 + 1 - 1) 0 =
            if j2 = 0 then bandMean samples (sel i0)
            else (bandLoop true samples sel (i0 + 1) m
              (bandMean samples (sel i0))).getD (j2 - 1) 0 := by
          cases j2 <;> simp
        by_cases hs2 : sel (i0 + (j2 + 1)) = []
        · rw [if_pos hs2, if_pos hs2, if_neg (Nat.succ_ne_zero j2), haux]
        · rw [if_neg hs2, if_neg hs2]

lemma bandLoop_nogap_getD (samples : List ℝ) (sel : ℕ → List ℕ) :
    ∀ (m i0 : ℕ) (prev : ℝ) (j : ℕ), j < m →
      (bandLoop false samples sel i0 m prev).getD j 0 =
        if sel (i0 + j) = [] then 0 else bandMean samples (sel (i0 + j)) := by
  intro m
  induction m with
  | zero => intro i0 prev j hj; omega
  | succ m ih =>
    intro i0 prev j hj
    by_cases hsel : sel i0 = []
    · rw [bandLoop_succ, if_pos hsel]
      cases j with
      | zero => simp [hsel]
      | succ j2 =>
        rw [List.getD_cons_succ, ih (i0 + 1) prev j2 (by omega)]
        have h1 : i0 + 1 + j2 = i0 + (j2 + 1) := by omega
        rw [h1]
    · rw [bandLoop_succ, if_neg hsel]
      cases j with
      | zero => simp [hsel]
      | succ j2 =>
        rw [List.getD_cons_succ, ih (i0 + 1) (bandMean samples (sel i0)) j2 (by omega)]
        have h1 : i0 + 1 + j2 = i0 + (j2 + 1) := by omega
        rw [h1]

/-- C1 (amended): bands are computed in increasing index order; a band whose
bin set is non-empty receives the arithmetic mean of the selected
magnitudes.  In the waterfall (and spectrogram) mapping an empty band
receives the previous band's raw energy (0 for band 0); in the circle (and
flames/bar) mapping an empty band receives 0 instead. -/
theorem band_energy_recursion (sr : ℝ) (samples : List ℝ) (i : ℕ) (h : i < 40) :
    (wfRawBands sr samples).getD i 0 =
      (if wfSel sr samples i = [] then
        (if i = 0 then 0 else (wfRawBands sr samples).getD (i - 1) 0)
       else bandMean samples (wfSel sr samples i)) ∧
    (circleRawBands sr samples).getD i 0 =
      (if circleSel sr samples i = [] then 0
       else bandMean samples (circleSel sr samples i)) := by
  constructor
  · have hg := bandLoop_gap_getD samples (wfSel sr samples) 40 0 0 i h
    simpa [wfRawBands, wfRawBandsN, wfSel] using hg
  · have hn := bandLoop_nogap_getD samples (circleSel sr samples) 40 0 0 i h
    simpa [circleRawBands] using hn

/-- Witness for C1 at band 5 of the empty spectrum. -/
theorem band_energy_recursion_witness :
    ((wfRawBands 44100 []).getD 5 0 =
      (if wfSel 44100 [] 5 = [] then
        (if 5 = 0 then 0 else (wfRawBands 44100 []).getD (5 - 1) 0)
       else bandMean [] (wfSel 44100 [] 5))) ∧
    ((circleRawBands 44100 []).getD 5 0 =
      (if circleSel 44100 [] 5 = [] then 0
       else bandMean [] (circleSel 44100 [] 5))) :=
  band_energy_recursion 44100 [] 5 (by norm_num)

/-! ## Concrete band edges (20 Hz to 20000 Hz, 40 bands) -/

lemma logb_span_2020k : Real.logb 10 20000 - Real.logb 10 20 = 3 := by
  rw [← Real.logb_div (by norm_num) (by norm_num)]
  have h1 : (20000:ℝ) / 20 = 1000 := by norm_num
  rw [h1, show (1000:ℝ) = (10:ℝ) ^ (3:ℝ) from by
    rw [show (3:ℝ) = ((3:ℕ):ℝ) by norm_num, Real.rpow_natCast]; norm_num]
  exact Real.logb_rpow (by norm_num) (by norm_num)

lemma getD_map_range (f : ℕ → ℝ) (n i : ℕ) (hi : i < n) :
    ((List.range n).map f).getD i 0 = f i := by
  have hlen : i < ((List.range n).map f).length := by
    rw [List.length_map, List.length_range]
    exact hi
  rw [List.getD_eq_getElem?_getD, List.getElem?_eq_getElem hlen]
  simp

lemma edgesLog_getD_2020k (i : ℕ) (hi : i < 41) :
    (edgesLog 20 20000 40).getD i 0 = 20 * (10:ℝ) ^ (((3 * i : ℕ) : ℝ) / ((40:ℕ) : ℝ)) := by
  unfold edgesLog logspace
  rw [getD_map_range _ _ _ (by omega : i < 40 + 1)]
  rw [logb_span_2020k]
  have hnum : ((40 + 1 - 1 : ℕ) : ℝ) = ((40:ℕ) : ℝ) := by norm_num
  rw [hnum, Real.rpow_add (by norm_num : (0:ℝ) < 10),
    Real.rpow_logb (by norm_num) (by norm_num) (by norm_num : (0:ℝ) < 20)]
  have hexp : (i : ℝ) * 3 / ((40:ℕ) : ℝ) = ((3 * i : ℕ) : ℝ) / ((40:ℕ) : ℝ) := by
    push_cast
    ring
  rw [hexp]

lemma rpow_div_le_iff_pow (c : ℝ) (hc : 0 < c) (p n : ℕ) (hn : 0 < n) :
    (10:ℝ) ^ ((p:ℝ) / (n:ℝ)) ≤ c ↔ (10:ℝ) ^ p ≤ c ^ n := by
  have h10 : (0:ℝ) < 10 := by norm_num
  have hx : (0:ℝ) ≤ (10:ℝ) ^ ((p:ℝ) / (n:ℝ)) := (Real.rpow_pos_of_pos h10 _).le
  have hn0 : (n:ℝ) ≠ 0 := Nat.cast_ne_zero.mpr hn.ne'
  have key : ((10:ℝ) ^ ((p:ℝ) / (n:ℝ))) ^ n = (10:ℝ) ^ p := by
    rw [← Real.rpow_natCast ((10:ℝ) ^ ((p:ℝ) / (n:ℝ))) n, ← Real.rpow_mul h10.le,
      div_mul_cancel₀ (p:ℝ) hn0, Real.rpow_natCast]
  rw [← key]
  exact (pow_le_pow_iff_left₀ hx hc.le hn.ne').symm

lemma lt_rpow_div_iff_pow (c : ℝ) (hc : 0 < c) (p n : ℕ) (hn : 0 < n) :
    c < (10:ℝ) ^ ((p:ℝ) / (n:ℝ)) ↔ c ^ n < (10:ℝ) ^ p := by
  constructor
  · intro h
    by_contra hh
    push_neg at hh
    exact absurd ((rpow_div_le_iff_pow c hc p n hn).mpr hh) (not_le.mpr h)
  · intro h
    by_contra hh
    push_neg at hh
    exact absurd ((rpow_div_le_iff_pow c hc p n hn).mp hh) (not_le.mpr h)

lemma edge_2020k_pos (i : ℕ) (hi : i < 41) : 0 < (edgesLog 20 20000 40).getD i 0 := by
  rw [edgesLog_getD_2020k i hi]
  positivity

lemma edge33_le_6300 : (edgesLog 20 20000 40).getD 33 0 ≤ 6300 := by
  rw [edgesLog_getD_2020k 33 (by norm_num)]
  have h := (rpow_div_le_iff_pow 315 (by norm_num) (3 * 33) 40 (by norm_num)).mpr (by norm_num)
  nlinarith

lemma lt_edge34_6300 : (6300:ℝ) < (edgesLog 20 20000 40).getD 34 0 := by
  rw [edgesLog_getD_2020k 34 (by norm_num)]
  have h := (lt_rpow_div_iff_pow 315 (by norm_num) (3 * 34) 40 (by norm_num)).mpr (by norm_num)
  nlinarith

lemma edge34_le_12600 : (edgesLog 20 20000 40).getD 34 0 ≤ 12600 := by
  rw [edgesLog_getD_2020k 34 (by norm_num)]
  have h := (rpow_div_le_iff_pow 630 (by norm_num) (3 * 34) 40 (by norm_num)).mpr (by norm_num)
  nlinarith

lemma edge35_le_12600 : (edgesLog 20 20000 40).getD 35 0 ≤ 12600 := by
  rw [edgesLog_getD_2020k 35 (by norm_num)]
  have h := (rpow_div_le_iff_pow 630 (by norm_num) (3 * 35) 40 (by norm_num)).mpr (by norm_num)
  nlinarith

/-! ## C1 counterexample: circle band mapping on a length-4 spectrum -/

lemma freqs7_length : (rfftfreq 7 (1 / (44100:ℝ))).length = 4 := by
  unfold rfftfreq
  simp

lemma freqs7_getD (k : ℕ) (hk : k < 4) :
    (rfftfreq 7 (1 / (44100:ℝ))).getD k 0 = 6300 * k := by
  unfold rfftfreq
  rw [show (7:ℕ) / 2 + 1 = 4 from by norm_num, getD_map_range _ _ _ hk]
  push_cast
  field_simp
  ring

lemma circleSel_cex (i : ℕ) :
    circleSel 44100 ([0, 1, 0, 0] : List ℝ) i =
      bandSel (edgesLog 20 20000 40) (rfftfreq 7 (1 / 44100)) 4 i := by
  unfold circleSel
  norm_num

lemma freqs7_getD0 : (rfftfreq 7 (1 / (44100:ℝ))).getD 0 0 = 0 := by
  rw [freqs7_getD 0 (by norm_num)]
  norm_num

lemma freqs7_getD1 : (rfftfreq 7 (1 / (44100:ℝ))).getD 1 0 = 6300 := by
  rw [freqs7_getD 1 (by norm_num)]
  norm_num

lemma freqs7_getD2 : (rfftfreq 7 (1 / (44100:ℝ))).getD 2 0 = 12600 := by
  rw [freqs7_getD 2 (by norm_num)]
  norm_num

lemma freqs7_getD3 : (rfftfreq 7 (1 / (44100:ℝ))).getD 3 0 = 18900 := by
  rw [freqs7_getD 3 (by norm_num)]
  norm_num

lemma bandSel_cex_34 :
    bandSel (edgesLog 20 20000 40) (rfftfreq 7 (1 / 44100)) 4 34 = [] := by
  unfold bandSel
  apply List.filter_eq_nil_iff.mpr
  intro a ha
  exfalso
  obtain ⟨har, hdec⟩ := List.mem_filter.mp ha
  rw [List.mem_range, freqs7_length] at har
  rw [decide_eq_true_eq] at hdec
  obtain ⟨hge, hlt⟩ := hdec
  interval_cases a
  · rw [freqs7_getD0] at hge
    exact absurd hge (not_le.mpr (edge_2020k_pos 34 (by norm_num)))
  · rw [freqs7_getD1] at hge
    exact absurd hge (not_le.mpr lt_edge34_6300)
  · rw [show (34:ℕ) + 1 = 35 from rfl, freqs7_getD2] at hlt
    exact absurd hlt (not_lt.mpr edge35_le_12600)
  · rw [show (34:ℕ) + 1 = 35 from rfl, freqs7_getD3] at hlt
    exact absurd hlt (not_lt.mpr (le_trans edge35_le_12600 (by norm_num)))

lemma bandSel_cex_33 :
    bandSel (edgesLog 20 20000 40) (rfftfreq 7 (1 / 44100)) 4 33 = [1] := by
  unfold bandSel
  rw [freqs7_length, show List.range 4 = [0, 1, 2, 3] from rfl]
  have h0 : ¬ ((edgesLog 20 20000 40).getD 33 0 ≤ (rfftfreq 7 (1 / 44100)).getD 0 0 ∧
      (rfftfreq 7 (1 / 44100)).getD 0 0 < (edgesLog 20 20000 40).getD (33 + 1) 0) := by
    rintro ⟨hge, hlt⟩
    rw [freqs7_getD0] at hge
    exact absurd hge (not_le.mpr (edge_2020k_pos 33 (by norm_num)))
  have h1 : (edgesLog 20 20000 40).getD 33 0 ≤ (rfftfreq 7 (1 / 44100)).getD 1 0 ∧
      (rfftfreq 7 (1 / 44100)).getD 1 0 < (edgesLog 20 20000 40).getD (33 + 1) 0 := by
    rw [freqs7_getD1, show (33:ℕ) + 1 = 34 from rfl]
    exact ⟨edge33_le_6300, lt_edge34_6300⟩
  have h2 : ¬ ((edgesLog 20 20000 40).getD 33 0 ≤ (rfftfreq 7 (1 / 44100)).getD 2 0 ∧
      (rfftfreq 7 (1 / 44100)).getD 2 0 < (edgesLog 20 20000 40).getD (33 + 1) 0) := by
    rintro ⟨hge, hlt⟩
    rw [freqs7_getD2, show (33:ℕ) + 1 = 34 from rfl] at hlt
    exact absurd hlt (not_lt.mpr edge34_le_12600)
  have h3 : ¬ ((edgesLog 20 20000 40).getD 33 0 ≤ (rfftfreq 7 (1 / 44100)).getD 3 0 ∧
      (rfftfreq 7 (1 / 44100)).getD 3 0 < (edgesLog 20 20000 40).getD (33 + 1) 0) := by
    rintro ⟨hge, hlt⟩
    rw [freqs7_getD3, show (33:ℕ) + 1 = 34 from rfl] at hlt
    exact absurd hlt (not_lt.mpr (le_trans edge34_le_12600 (by norm_num)))
  rw [List.filter_cons_of_neg (by simp only [decide_eq_true_eq]; exact h0),
    List.filter_cons_of_pos (by simp only [decide_eq_true_eq]; exact h1),
    List.filter_cons_of_pos (by simp)]
  have hrest : List.filter (fun k =>
      decide ((edgesLog 20 20000 40).getD 33 0 ≤ (rfftfreq 7 (1 / 44100)).getD k 0 ∧
        (rfftfreq 7 (1 / 44100)).getD k 0 < (edgesLog 20 20000 40).getD (33 + 1) 0)) [2, 3] = [] := by
    apply List.filter_eq_nil_iff.mpr
    intro a ha
    simp only [List.mem_cons, List.not_mem_nil, or_false] at ha
    rcases ha with rfl | rfl
    · simp only [decide_eq_true_eq]
      exact h2
    · simp only [decide_eq_true_eq]
      exact h3
  rw [hrest, List.filter_nil]

/-- Counterexample for C1: on the length-4 spectrum `[0, 1, 0, 0]` at sample
rate 44100 the circle mapping has band 33 = `{bin 1}` with raw energy 1
(the mean of the selected magnitudes), while band 34 has an empty bin set
and raw energy 0 — not band 33's raw energy 1, contradicting the claim that
every empty band receives the previous band's raw energy. -/
theorem circle_gap_fill_counterexample :
    circleSel 44100 ([0, 1, 0, 0] : List ℝ) 34 = [] ∧
    (circleRawBands 44100 ([0, 1, 0, 0] : List ℝ)).getD 33 0 = 1 ∧
    (circleRawBands 44100 ([0, 1, 0, 0] : List ℝ)).getD 34 0 = 0 ∧
    (circleRawBands 44100 ([0, 1, 0, 0] : List ℝ)).getD 34 0 ≠
      (circleRawBands 44100 ([0, 1, 0, 0] : List ℝ)).getD 33 0 := by
  have hsel34 : circleSel 44100 ([0, 1, 0, 0] : List ℝ) 34 = [] := by
    rw [circleSel_cex]
    exact bandSel_cex_34
  have hsel33 : circleSel 44100 ([0, 1, 0, 0] : List ℝ) 33 = [1] := by
    rw [circleSel_cex]
    exact bandSel_cex_33
  have h33 : (circleRawBands 44100 ([0, 1, 0, 0] : List ℝ)).getD 33 0 = 1 := by
    have h := bandLoop_nogap_getD ([0, 1, 0, 0] : List ℝ)
      (circleSel 44100 ([0, 1, 0, 0] : List ℝ)) 40 0 0 33 (by norm_num)
    simp only [Nat.zero_add] at h
    unfold circleRawBands
    rw [h, if_neg (by rw [hsel33]; simp), hsel33]
    simp [bandMean, listMean]
  have h34 : (circleRawBands 44100 ([0, 1, 0, 0] : List ℝ)).getD 34 0 = 0 := by
    have h := bandLoop_nogap_getD ([0, 1, 0, 0] : List ℝ)
      (circleSel 44100 ([0, 1, 0, 0] : List ℝ)) 40 0 0 34 (by norm_num)
    simp only [Nat.zero_add] at h
    unfold circleRawBands
    rw [h, if_pos hsel34]
  exact ⟨hsel34, h33, h34, by rw [h33, h34]; norm_num⟩

/-! ## Claim C2: frequency assigned to FFT bin k -/

/-- C2 (code bug): for a spectrum of length `L = 2` at sample rate 44100 the
band mapping assigns bin 1 the frequency `1 / ((1/44100) * (2*2-1)) =
44100/3 = 14700` (it calls `rfftfreq` with `n_fft*2 - 1 = 2L-1`), whereas
the real-FFT convention stated in the specification gives
`k * sr / (2*(L-1)) = 44100/2 = 22050`.  The two disagree. -/
theorem bin_freq_off_by_one :
    (rfftfreq (2 * ([(0:ℝ), 0] : List ℝ).length - 1) (1 / 44100)).getD 1 0 = 14700 ∧
    (1:ℝ) * 44100 / (2 * (2 - 1)) = 22050 ∧
    (14700:ℝ) ≠ 22050 := by
  refine ⟨?_, by norm_num, by norm_num⟩
  have hn : 2 * ([(0:ℝ), 0] : List ℝ).length - 1 = 3 := by simp
  rw [hn]
  unfold rfftfreq
  rw [show (3:ℕ) / 2 + 1 = 2 from rfl, getD_map_range _ _ _ (by norm_num)]
  norm_num

/-! ## Claim C7: uniform spectrum gives uniform bands -/

lemma getD_map_of_lt (f : ℝ → ℝ) (l : List ℝ) (j : ℕ) (hj : j < l.length) :
    (l.map f).getD j 0 = f (l.getD j 0) := by
  rw [List.getD_eq_getElem?_getD, List.getD_eq_getElem?_getD,
    List.getElem?_eq_getElem (by simpa using hj), List.getElem?_eq_getElem hj]
  simp

lemma listMean_const (l : List ℝ) (c : ℝ) (h : ∀ x ∈ l, x = c) (hne : l ≠ []) :
    listMean l = c := by
  unfold listMean
  rw [List.sum_eq_card_nsmul l c h, nsmul_eq_mul]
  have hlen : (l.length : ℝ) ≠ 0 :=
    Nat.cast_ne_zero.mpr (fun hz => hne (List.length_eq_zero.mp hz))
  field_simp

lemma getD_replicate_of_lt (L k : ℕ) (m : ℝ) (hk : k < L) :
    (List.replicate L m).getD k 0 = m := by
  rw [List.getD_eq_getElem?_getD, List.getElem?_replicate_of_lt hk]
  rfl

lemma bandSel_mem_lt (edges freqs : List ℝ) (L i : ℕ) :
    ∀ k ∈ bandSel edges freqs L i, k < L := by
  intro k hk
  unfold bandSel at hk
  have h := (List.mem_filter.mp hk).2
  simpa using h

lemma bandMean_const (L : ℕ) (m : ℝ) (idx : List ℕ) (hidx : ∀ k ∈ idx, k < L)
    (hne : idx ≠ []) : bandMean (List.replicate L m) idx = m := by
  unfold bandMean
  apply listMean_const
  · intro x hx
    obtain ⟨k, hk, rfl⟩ := List.mem_map.mp hx
    exact getD_replicate_of_lt L k m (hidx k hk)
  · simpa using hne

lemma bandLoop_gap_const (samples : List ℝ) (sel : ℕ → List ℕ) (x : ℝ)
    (hmean : ∀ j, sel j ≠ [] → bandMean samples (sel j) = x) :
    ∀ (m i0 : ℕ), ∀ e ∈ bandLoop true samples sel i0 m x, e = x := by
  intro m
  induction m with
  | zero => intro i0 e he; rw [bandLoop_zero] at he; exact absurd he (List.not_mem_nil e)
  | succ m ih =>
    intro i0 e he
    rw [bandLoop_succ] at he
    by_cases hsel : sel i0 = []
    · rw [if_pos hsel] at he
      rcases List.mem_cons.mp he with heq | hmem
      · rw [heq]; rfl
      · exact ih (i0 + 1) e hmem
    · rw [if_neg hsel] at he
      rcases List.mem_cons.mp he with heq | hmem
      · rw [heq]; exact hmean i0 hsel
      · rw [hmean i0 hsel] at hmem
        exact ih (i0 + 1) e hmem

lemma bandLoop_nogap_const (samples : List ℝ) (sel : ℕ → List ℕ) (x : ℝ)
    (hmean : ∀ j, sel j ≠ [] → bandMean samples (sel j) = x) :
    ∀ (m i0 : ℕ) (prev : ℝ), (∀ j, i0 ≤ j → j < i0 + m → sel j ≠ []) →
      ∀ e ∈ bandLoop false samples sel i0 m prev, e = x := by
  intro m
  induction m with
  | zero => intro i0 prev hall e he; rw [bandLoop_zero] at he; exact absurd he (List.not_mem_nil e)
  | succ m ih =>
    intro i0 prev hall e he
    have hsel : sel i0 ≠ [] := hall i0 (le_refl _) (by omega)
    rw [bandLoop_succ, if_neg hsel] at he
    rcases List.mem_cons.mp he with heq | hmem
    · rw [heq]; exact hmean i0 hsel
    · exact ih (i0 + 1) _ (fun j hj1 hj2 => hall j (by omega) (by omega)) e hmem

/-- C7 (amended): for every uniform spectrum of constant positive magnitude
`m`, every waterfall band energy equals `log10(m + 1e-3)` provided band 0's
bin set is non-empty (gap interpolation then propagates the value `m` into
every empty band); for the circle mapping the same holds provided every one
of the 40 bands has a non-empty bin set (an empty band would instead
contribute `log10(0 + 1e-3)`). -/
theorem uniform_spectrum_bands (sr : ℝ) (L : ℕ) (m : ℝ) (_hm : 0 < m) :
    (wfSel sr (List.replicate L m) 0 ≠ [] →
      ∀ e ∈ wfBandEnergies sr (List.replicate L m), e = Real.logb 10 (m + 1e-3)) ∧
    ((∀ i, i < 40 → circleSel sr (List.replicate L m) i ≠ []) →
      ∀ e ∈ circleBandEnergies sr (List.replicate L m), e = Real.logb 10 (m + 1e-3)) := by
  have hmeanwf : ∀ j, wfSelN 40 sr (List.replicate L m) j ≠ [] →
      bandMean (List.replicate L m) (wfSelN 40 sr (List.replicate L m) j) = m := by
    intro j hj
    refine bandMean_const L m _ ?_ hj
    intro k hk
    have hlt := bandSel_mem_lt _ _ _ _ k hk
    simpa using hlt
  have hmeanc : ∀ j, circleSel sr (List.replicate L m) j ≠ [] →
      bandMean (List.replicate L m) (circleSel sr (List.replicate L m) j) = m := by
    intro j hj
    refine bandMean_const L m _ ?_ hj
    intro k hk
    have hlt := bandSel_mem_lt _ _ _ _ k hk
    simpa using hlt
  constructor
  · intro h0 e he
    unfold wfBandEnergies wfEnergiesN at he
    obtain ⟨b, hb, rfl⟩ := List.mem_map.mp he
    suffices hb2 : b = m by rw [hb2]
    unfold wfRawBandsN at hb
    have h0n : wfSelN 40 sr (List.replicate L m) 0 ≠ [] := h0
    rw [show (40:ℕ) = 39 + 1 from rfl, bandLoop_succ, if_neg h0n] at hb
    rcases List.mem_cons.mp hb with heq | hmem
    · rw [heq]; exact hmeanwf 0 h0n
    · rw [hmeanwf 0 h0n] at hmem
      exact bandLoop_gap_const (List.replicate L m) (wfSelN 40 sr (List.replicate L m)) m
        hmeanwf 39 1 b hmem
  · intro hall e he
    unfold circleBandEnergies at he
    obtain ⟨b, hb, rfl⟩ := List.mem_map.mp he
    suffices hb2 : b = m by rw [hb2]
    unfold circleRawBands at hb
    exact bandLoop_nogap_const (List.replicate L m) (circleSel sr (List.replicate L m)) m
      hmeanc 40 0 0 (fun j hj1 hj2 => hall j (by omega)) b hb

lemma freqs1999_length : (rfftfreq 1999 (1 / (44100:ℝ))).length = 1000 := by
  unfold rfftfreq
  simp

lemma freqs1999_getD1 : (rfftfreq 1999 (1 / (44100:ℝ))).getD 1 0 = 44100 / 1999 := by
  unfold rfftfreq
  rw [show (1999:ℕ) / 2 + 1 = 1000 from by norm_num, getD_map_range _ _ _ (by norm_num)]
  push_cast
  field_simp

lemma edge0_le_f1 : (edgesLog 20 20000 40).getD 0 0 ≤ 44100 / 1999 := by
  rw [edgesLog_getD_2020k 0 (by norm_num)]
  norm_num

lemma f1_lt_edge1 : (44100:ℝ) / 1999 < (edgesLog 20 20000 40).getD 1 0 := by
  rw [edgesLog_getD_2020k 1 (by norm_num)]
  have h := (lt_rpow_div_iff_pow (2205 / 1999) (by positivity) (3 * 1) 40 (by norm_num)).mpr
    (by
      rw [div_pow, div_lt_iff₀ (by positivity)]
      norm_num)
  have h2 := mul_lt_mul_of_pos_left h (by norm_num : (0:ℝ) < 20)
  calc (44100:ℝ) / 1999 = 20 * (2205 / 1999) := by norm_num
    _ < 20 * (10:ℝ) ^ (((3 * 1 : ℕ) : ℝ) / ((40:ℕ) : ℝ)) := h2

lemma wfSel_uniform1000_nonempty : wfSel 44100 (List.replicate 1000 (1:ℝ)) 0 ≠ [] := by
  intro hempty
  have h1 : (1:ℕ) ∈ wfSel 44100 (List.replicate 1000 (1:ℝ)) 0 := by
    unfold wfSel wfSelN
    rw [List.length_replicate, show (2 * 1000 - 1 : ℕ) = 1999 from rfl]
    apply List.mem_filter.mpr
    refine ⟨List.mem_filter.mpr ⟨?_, ?_⟩, by simp⟩
    · rw [List.mem_range, freqs1999_length]
      norm_num
    · simp only [decide_eq_true_eq]
      rw [freqs1999_getD1, show (0:ℕ) + 1 = 1 from rfl]
      exact ⟨edge0_le_f1, f1_lt_edge1⟩
  rw [hempty] at h1
  exact absurd h1 (List.not_mem_nil 1)

/-- Witness for C7: the uniform spectrum of magnitude 1 and length 1000 at
sample rate 44100 has a non-empty band 0 (bin 1, at 44100/1999 Hz, falls in
[20 Hz, 20 * 10^(3/40) Hz)), so every waterfall band energy equals
`log10(1 + 1e-3)`. -/
theorem uniform_spectrum_bands_witness :
    (0:ℝ) < 1 ∧ wfSel 44100 (List.replicate 1000 (1:ℝ)) 0 ≠ [] ∧
    (∀ e ∈ wfBandEnergies 44100 (List.replicate 1000 (1:ℝ)), e = Real.logb 10 (1 + 1e-3)) :=
  ⟨by norm_num, wfSel_uniform1000_nonempty,
   (uniform_spectrum_bands 44100 1000 1 (by norm_num)).1 wfSel_uniform1000_nonempty⟩

lemma freqs1_getD0 : (rfftfreq 1 (1 / (44100:ℝ))).getD 0 0 = 0 := by
  unfold rfftfreq
  rw [show (1:ℕ) / 2 + 1 = 1 from rfl, getD_map_range _ _ _ (by norm_num)]
  norm_num

lemma wfSel_L1_0_eval : wfSel 44100 ([(1:ℝ)]) 0 =
    bandSel (edgesLog 20 20000 40) (rfftfreq 1 (1 / 44100)) 1 0 := by
  unfold wfSel wfSelN
  norm_num

lemma bandSel_L1_0_empty : bandSel (edgesLog 20 20000 40) (rfftfreq 1 (1 / 44100)) 1 0 = [] := by
  unfold bandSel
  apply List.filter_eq_nil_iff.mpr
  intro a ha
  exfalso
  obtain ⟨har, hdec⟩ := List.mem_filter.mp ha
  rw [List.mem_range] at har
  have hl : (rfftfreq 1 (1 / (44100:ℝ))).length = 1 := by
    unfold rfftfreq
    simp
  rw [hl] at har
  rw [decide_eq_true_eq] at hdec
  obtain ⟨hge, hlt⟩ := hdec
  interval_cases a
  rw [freqs1_getD0] at hge
  exact absurd hge (not_le.mpr (edge_2020k_pos 0 (by norm_num)))

lemma wfRaw_L1_getD0 : (wfRawBands 44100 [(1:ℝ)]).getD 0 0 = 0 := by
  have h := bandLoop_gap_getD [(1:ℝ)] (wfSelN 40 44100 [(1:ℝ)]) 40 0 0 0 (by norm_num)
  simp only [Nat.zero_add] at h
  have hsel : wfSelN 40 44100 [(1:ℝ)] 0 = [] := by
    rw [show wfSelN 40 44100 ([(1:ℝ)]) 0 = wfSel 44100 ([(1:ℝ)]) 0 from rfl,
      wfSel_L1_0_eval]
    exact bandSel_L1_0_empty
  unfold wfRawBands wfRawBandsN
  rw [h, if_pos hsel]
  simp

/-- Counterexample for C7: for the uniform spectrum `[1]` of length 1 every
band's bin set is empty (the only bin sits at 0 Hz, below the 20 Hz lower
edge), so waterfall band 0 carries `log10(0 + 1e-3) = -3`, not
`log10(1 + 1e-3)` as the claim requires for every uniform positive
spectrum. -/
theorem uniform_spectrum_counterexample :
    ([(1:ℝ)] = List.replicate 1 (1:ℝ)) ∧ (0:ℝ) < 1 ∧
    (wfBandEnergies 44100 [(1:ℝ)]).length = 40 ∧
    (wfBandEnergies 44100 [(1:ℝ)]).getD 0 0 ≠ Real.logb 10 (1 + 1e-3) := by
  refine ⟨rfl, by norm_num, by simp [wfBandEnergies, wfEnergiesN, wfRawBandsN, bandLoop_length], ?_⟩
  have hlen : (wfRawBands 44100 [(1:ℝ)]).length = 40 := by
    simp [wfRawBands, wfRawBandsN, bandLoop_length]
  have hmap : (wfBandEnergies 44100 [(1:ℝ)]).getD 0 0 =
      Real.logb 10 ((wfRawBands 44100 [(1:ℝ)]).getD 0 0 + 1e-3) := by
    unfold wfBandEnergies wfEnergiesN
    exact getD_map_of_lt _ _ 0 (by rw [show wfRawBandsN 40 44100 [(1:ℝ)] =
      wfRawBands 44100 [(1:ℝ)] from rfl, hlen]; norm_num)
  rw [hmap, wfRaw_L1_getD0, zero_add]
  have hneg : Real.logb 10 (1e-3) < 0 := Real.logb_neg (by norm_num) (by norm_num) (by norm_num)
  have hpos : 0 < Real.logb 10 (1 + 1e-3) := Real.logb_pos (by norm_num) (by norm_num)
  exact ne_of_lt (lt_trans hneg hpos)
